import Mathlib

/-!
Verification of the blog-rendering utility (`js/blog-renderer.js`).

JavaScript strings are modelled as `List Char` (`JStr`), which mirrors the
code-unit view the source manipulates through `substring`, `slice`, `indexOf`
and regular expressions.  Each definition below embeds one function (or one
regular-expression construct) of the source file; theorems about the spec's
claims follow the definitions.
-/

namespace BlogRenderer

/-- JavaScript strings, modelled as lists of characters. -/
abbrev JStr := List Char

/-- Coerce a Lean string literal to the `JStr` model. -/
def strL (s : String) : JStr := s.data

/-- The JavaScript `\s` character class (also the set trimmed by
`String.prototype.trim`): space, tab, LF, VT, FF, CR, NBSP and the Unicode
space separators, plus U+FEFF. -/
def isJsSpace (c : Char) : Bool :=
  c == ' ' || c == '\t' || c == '\n' || c == '\x0b' || c == '\x0c' || c == '\r' ||
  c == '\u00A0' || c == '\u1680' || ('\u2000' ≤ c && c ≤ '\u200A') ||
  c == '\u2028' || c == '\u2029' || c == '\u202F' || c == '\u205F' ||
  c == '\u3000' || c == '\uFEFF'

/-- Model of `String.prototype.trim`: drop `\s` characters from both ends. -/
def jsTrim (v : JStr) : JStr :=
  ((v.dropWhile (isJsSpace ·)).reverse.dropWhile (isJsSpace ·)).reverse

/-- A quote character, as matched by the source's `/^["']|["']$/g`. -/
def isQuote (c : Char) : Bool := c == '"' || c == '\''

/-- First half of `value.replace(/^["']|["']$/g, '')`: remove one leading quote. -/
def dropLeadQuote : JStr → JStr
  | [] => []
  | c :: r => if isQuote c then r else c :: r

/-- Second half of `value.replace(/^["']|["']$/g, '')`: remove one trailing quote. -/
def dropTrailQuote (v : JStr) : JStr :=
  match v.getLast? with
  | some c => if isQuote c then v.dropLast else v
  | none => v

/-- Full `value.replace(/^["']|["']$/g, '')`: the global regex removes a quote at
position 0 and a quote at the final position (at most one each, matched left
to right without overlap). -/
def stripQuotes (v : JStr) : JStr := dropTrailQuote (dropLeadQuote v)

/-- Model of `String.prototype.split(sep)` for a single-character separator: always
returns one more piece than the number of separators, in particular `[""]`
on the empty string. -/
def splitOnChar (sep : Char) : JStr → List JStr
  | [] => [[]]
  | c :: r =>
    match splitOnChar sep r with
    | [] => [[]]
    | h :: t => if c = sep then [] :: h :: t else (c :: h) :: t

/-- Matching `---` at the current position (the literal dashes of the
frontmatter regex). -/
def stripDashes : JStr → Option JStr
  | a :: b :: c :: r => if a = '-' ∧ b = '-' ∧ c = '-' then some r else none
  | _ => none

/-- All ways the regex fragment `\s*\n` can match a prefix of the input,
listed in the order a backtracking engine tries them (greedy `\s*`, longest
first).  Each entry is the remaining input after the matched `\n`. -/
def wsNlSplits : JStr → List JStr
  | [] => []
  | c :: r =>
    if c = '\n' then wsNlSplits r ++ [r]
    else if isJsSpace c then wsNlSplits r
    else []

/-- Matching the closing fragment `---\s*\n` at the current position; since
the continuation `([\s\S]*)$` always succeeds, the greedy first alternative
of `\s*\n` is committed to.  Returns the remaining input (capture group 2). -/
def closeAt (r : JStr) : Option JStr :=
  match stripDashes r with
  | some r2 => (wsNlSplits r2).head?
  | none => none

/-- The lazy search performed by `([\s\S]*?)\n---\s*\n`: the first (leftmost)
position whose `\n` is followed by a closing delimiter wins.  Returns capture
group 1 and the input remaining after the closing delimiter. -/
def findClose : JStr → Option (JStr × JStr)
  | [] => none
  | c :: r =>
    if c = '\n' then
      match closeAt r with
      | some rem => some ([], rem)
      | none =>
        match findClose r with
        | some p => some (c :: p.1, p.2)
        | none => none
    else
      match findClose r with
      | some p => some (c :: p.1, p.2)
      | none => none

/-- Backtracking over the options of the first `\s*\n`: the first option
whose lazy close-search succeeds wins. -/
def pickClose : List JStr → Option (JStr × JStr)
  | [] => none
  | r0 :: rest =>
    match findClose r0 with
    | some p => some p
    | none => pickClose rest

/-- Model of `markdown.match(/^---\s*\n([\s\S]*?)\n---\s*\n([\s\S]*)$/)`: `some (g1, g2)`
with the two capture groups when the regex matches, `none` otherwise. -/
def fmMatch (s : JStr) : Option (JStr × JStr) :=
  match stripDashes s with
  | none => none
  | some r => pickClose (wsNlSplits r)

/-- A frontmatter value: a string, or an ordered sequence of strings produced
by the bracket-list rule. -/
inductive FMValue where
  | str (s : JStr)
  | list (l : List JStr)
deriving DecidableEq, Repr

instance : Inhabited FMValue := ⟨FMValue.str []⟩

/-- A JavaScript object with string keys, as an insertion-ordered
association list. -/
abbrev Obj := List (JStr × FMValue)

/-- JavaScript property read `o[k]` (objects built here have unique keys,
so first match suffices). -/
def objGet (o : Obj) (k : JStr) : Option FMValue :=
  (o.find? (fun p => p.1 = k)).map (·.2)

/-- JavaScript property assignment `o[k] = v`: update in place when the key
exists, append otherwise (insertion order preserved). -/
def objSet (o : Obj) (k : JStr) (v : FMValue) : Obj :=
  if o.any (fun p => p.1 = k) then
    o.map (fun p => if p.1 = k then (k, v) else p)
  else o ++ [(k, v)]

/-- One iteration of the frontmatter line loop: locate the first `:`; when it
exists at a positive index, trim the key, trim and unquote the value, apply
the bracket-list rule, and return the binding; otherwise the line is ignored. -/
def parseLine (line : JStr) : Option (JStr × FMValue) :=
  let ci := line.findIdx (· == ':')
  if 0 < ci ∧ ci < line.length then
    let key := jsTrim (line.take ci)
    let value := stripQuotes (jsTrim (line.drop (ci + 1)))
    if value.head? = some '[' ∧ value.getLast? = some ']' then
      some (key, .list (((splitOnChar ',' (value.drop 1).dropLast)).map
        (fun v => stripQuotes (jsTrim v))))
    else some (key, .str value)
  else none

/-- The frontmatter loop applied to an explicit list of lines. -/
def parseLines (ls : List JStr) : Obj :=
  ls.foldl (fun fm line =>
    match parseLine line with
    | some (k, v) => objSet fm k v
    | none => fm) []

/-- Model of `frontmatterText.split('\n').forEach(...)` building the frontmatter object. -/
def parseFMText (g1 : JStr) : Obj := parseLines (splitOnChar '\n' g1)

/-- The `{ frontmatter, content }` record returned by `parseFrontmatter`. -/
structure FMResult where
  frontmatter : Obj
  content : JStr
deriving DecidableEq, Repr

/-- Function `parseFrontmatter(markdown)` from `js/blog-renderer.js`. -/
def parseFrontmatter (markdown : JStr) : FMResult :=
  match fmMatch markdown with
  | none => ⟨[], markdown⟩
  | some (g1, g2) => ⟨parseFMText g1, g2⟩

/-- Spread merge `{ ...postMeta, ...frontmatter }`: start from a copy of the base object and
assign every overlay property in order. -/
def spreadMerge (base overlay : Obj) : Obj :=
  overlay.foldl (fun acc p => objSet acc p.1 p.2) base

/-- The catalog key used for slug lookup (`p.slug`). -/
def slugKey : JStr := strL "slug"

/-- The catalog key used for sorting (`post.date`). -/
def dateKeyName : JStr := strL "date"

/-- The observable outcome of one run of `loadBlogPost`:
`showError('Blog post not found')`, the catch-all
`showError('Failed to load blog post. Please try again later.')`, or a
successful render with the merged metadata and parsed body. -/
inductive Outcome where
  | errorNotFound
  | errorLoadFailed
  | rendered (meta : Obj) (content : JStr)
deriving DecidableEq, Repr

/-- Run result plus whether the document (markdown) fetch was issued. -/
structure PostRun where
  outcome : Outcome
  mdFetched : Bool
deriving DecidableEq, Repr

/-- Function `loadBlogPost()` as a function of its environment: the `slug` query
parameter (`none` when absent), the catalog fetch (`.error` when `fetch` or
`response.json()` throws), and the document fetch for that slug (`.error`
when `fetch` throws, otherwise `(response.ok, text)`).  A thrown error
anywhere lands in the `catch` block, which shows the generic failure
message. -/
def loadBlogPost (slug : Option JStr) (catalog : Except Unit (List Obj))
    (mdDoc : Except Unit (Bool × JStr)) : PostRun :=
  match slug with
  | none => ⟨.errorNotFound, false⟩
  | some sl =>
    if sl = [] then ⟨.errorNotFound, false⟩
    else
      match catalog with
      | .error _ => ⟨.errorLoadFailed, false⟩
      | .ok posts =>
        match posts.find? (fun p => objGet p slugKey = some (.str sl)) with
        | none => ⟨.errorNotFound, false⟩
        | some postMeta =>
          match mdDoc with
          | .error _ => ⟨.errorLoadFailed, true⟩
          | .ok (okResp, text) =>
            if okResp then
              let r := parseFrontmatter text
              ⟨.rendered (spreadMerge postMeta r.frontmatter) r.content, true⟩
            else ⟨.errorLoadFailed, true⟩

/-- Numeric value of a decimal digit character. -/
def digitVal (c : Char) : Nat := c.toNat - '0'.toNat

/-- Decimal digit test. -/
def isDigit (c : Char) : Bool := '0' ≤ c && c ≤ '9'

/-- Gregorian leap-year rule (as used by ECMAScript date parsing). -/
def isLeap (y : Nat) : Bool := (y % 4 == 0 && y % 100 != 0) || y % 400 == 0

/-- Number of days in a month. -/
def daysInMonth (y m : Nat) : Nat :=
  if m = 2 then (if isLeap y then 29 else 28)
  else if m = 4 ∨ m = 6 ∨ m = 9 ∨ m = 11 then 30 else 31

/-- Modelled: `new Date(s).valueOf()` for ISO calendar-date strings
`YYYY-MM-DD`.  The key `y*10000 + m*100 + d` is strictly increasing in the
calendar date, hence order-isomorphic to the actual millisecond timestamp;
the sort comparator below only inspects the order.  Strings not denoting a
valid ISO calendar date give an invalid date (`NaN`), modelled as `none`. -/
def dateValue : JStr → Option Int
  | [y1, y2, y3, y4, '-', m1, m2, '-', d1, d2] =>
    if isDigit y1 && isDigit y2 && isDigit y3 && isDigit y4 &&
        isDigit m1 && isDigit m2 && isDigit d1 && isDigit d2 then
      let y := ((digitVal y1 * 10 + digitVal y2) * 10 + digitVal y3) * 10 + digitVal y4
      let m := digitVal m1 * 10 + digitVal m2
      let d := digitVal d1 * 10 + digitVal d2
      if 1 ≤ m && m ≤ 12 && 1 ≤ d && d ≤ daysInMonth y m then
        some ((y * 10000 + m * 100 + d : Nat) : Int)
      else none
    else none
  | _ => none

/-- Value of `new Date(post.date)` for a catalog entry. -/
def postDate (p : Obj) : Option Int :=
  match objGet p dateKeyName with
  | some (.str s) => dateValue s
  | _ => none

/-- The comparator `(a, b) => new Date(b.date) - new Date(a.date)`; when either
date is invalid the subtraction is `NaN`, which `Array.prototype.sort` treats
the same as `0`. -/
def dateCmp (a b : Obj) : Int :=
  match postDate a, postDate b with
  | some x, some y => y - x
  | _, _ => 0

/-- Test `dateCmp a b ≤ 0`: `a` may be placed before `b`. -/
def dateLe (a b : Obj) : Bool := dateCmp a b ≤ 0

/-- Sort key of an entry, defaulting invalid dates; used only to state order
properties of catalogs whose entries all carry valid dates. -/
def keyD (p : Obj) : Int := (postDate p).getD 0

/-- Stable insertion of one element into an already sorted run: `a` goes in
front of the first element it need not follow. -/
def insertPost (a : Obj) : List Obj → List Obj
  | [] => [a]
  | b :: l => if dateLe a b then a :: b :: l else b :: insertPost a l

/-- Model of `posts.sort((a, b) => new Date(b.date) - new Date(a.date))`:
`Array.prototype.sort` is stable, and for a consistent comparator every
stable sort produces the same list, so stable insertion sort models it. -/
def sortPosts : List Obj → List Obj
  | [] => []
  | a :: l => insertPost a (sortPosts l)

/-- The view `loadBlogList` leaves in the list region: the fetch-failure
message, the no-posts placeholder, or one card per entry in render order. -/
inductive ListView where
  | errorView
  | noPosts
  | cards (entries : List Obj)
deriving DecidableEq, Repr

/-- Function `loadBlogList()` as a function of the catalog fetch result. -/
def loadBlogList (catalog : Except Unit (List Obj)) : ListView :=
  match catalog with
  | .error _ => .errorView
  | .ok posts => if posts.isEmpty then .noPosts else .cards (sortPosts posts)

/-- The `highlight` callback installed by `renderMarkdownContent` via
`marked.setOptions`: when a language hint is present (`lang` truthy, i.e. a
non-empty string) and recognized (`hljs.getLanguage(lang)` truthy), try
`hljs.highlight`; a raised error is logged and swallowed, and every other
path returns `hljs.highlightAuto(code).value`. -/
def highlightFn (getLanguage : JStr → Bool) (highlightLang : JStr → JStr → Except Unit JStr)
    (highlightAuto : JStr → JStr) (code : JStr) (lang : Option JStr) : JStr :=
  match lang with
  | none => highlightAuto code
  | some l =>
    if !l.isEmpty && getLanguage l then
      match highlightLang l code with
      | .ok v => v
      | .error _ => highlightAuto code
    else highlightAuto code

/-- The first line of a document: everything before the first newline. -/
def firstLine (s : JStr) : JStr := s.takeWhile (fun c => c ≠ '\n')

/-- A frontmatter delimiter line: three dashes followed only by whitespace. -/
def isDelimLine (l : JStr) : Bool :=
  match l with
  | '-' :: '-' :: '-' :: r => r.all (isJsSpace ·)
  | _ => false

/-- Join lines with a separator character (the inverse of `splitOnChar` on
separator-free lines). -/
def joinSep (sep : Char) : List JStr → JStr
  | [] => []
  | [l] => l
  | l :: ls => l ++ sep :: joinSep sep ls

/-- A `key: value` line: a line (no embedded newline) whose first colon sits
at a positive index, which is exactly the condition under which the source's
line loop produces a binding. -/
def isKVLine (l : JStr) : Prop := '\n' ∉ l ∧ ':' ∈ l ∧ l.head? ≠ some ':'

instance (l : JStr) : Decidable (isKVLine l) := by
  unfold isKVLine
  infer_instance

/-! ### Lemmas about the regex matcher -/

theorem stripDashes_eq_some {s r : JStr} (h : stripDashes s = some r) :
    s = '-' :: '-' :: '-' :: r := by
  rcases s with _ | ⟨a, _ | ⟨b, _ | ⟨c, t⟩⟩⟩
  · exact absurd h (by simp [stripDashes])
  · exact absurd h (by simp [stripDashes])
  · exact absurd h (by simp [stripDashes])
  · have h' : (if a = '-' ∧ b = '-' ∧ c = '-' then some t else none) = some r := h
    by_cases hcond : a = '-' ∧ b = '-' ∧ c = '-'
    · rw [if_pos hcond] at h'
      cases h'
      obtain ⟨rfl, rfl, rfl⟩ := hcond
      rfl
    · rw [if_neg hcond] at h'
      cases h'

theorem wsNlSplits_eq_nil (r : JStr) (h : '\n' ∉ r.takeWhile (isJsSpace ·)) :
    wsNlSplits r = [] := by
  induction r with
  | nil => rfl
  | cons c r ih =>
    by_cases hc : c = '\n'
    · subst hc
      exfalso
      apply h
      rw [List.takeWhile_cons_of_pos (by decide)]
      exact List.mem_cons_self _ _
    · unfold wsNlSplits
      rw [if_neg hc]
      by_cases hs : isJsSpace c = true
      · rw [if_pos hs]
        apply ih
        intro hm
        apply h
        rw [List.takeWhile_cons_of_pos hs]
        exact List.mem_cons_of_mem _ hm
      · rw [if_neg hs]

theorem wsNlSplits_all_space (r : JStr) (h : wsNlSplits r ≠ []) :
    ∀ c ∈ r.takeWhile (fun c => c ≠ '\n'), isJsSpace c = true := by
  induction r with
  | nil => exact absurd rfl h
  | cons c r ih =>
    by_cases hc : c = '\n'
    · subst hc
      rw [List.takeWhile_cons_of_neg (by decide)]
      intro x hx
      cases hx
    · by_cases hs : isJsSpace c = true
      · have h' : wsNlSplits r ≠ [] := by
          intro he
          apply h
          unfold wsNlSplits
          rw [if_neg hc, if_pos hs]
          exact he
        rw [List.takeWhile_cons_of_pos (by simpa using hc)]
        intro x hx
        rcases List.mem_cons.mp hx with hx | hx
        · exact hx ▸ hs
        · exact ih h' x hx
      · exfalso
        apply h
        unfold wsNlSplits
        rw [if_neg hc, if_neg hs]

theorem wsNlSplits_suffix (r : JStr) : ∀ t ∈ wsNlSplits r, t <:+ r := by
  induction r with
  | nil => intro t ht; cases ht
  | cons c r ih =>
    intro t ht
    unfold wsNlSplits at ht
    by_cases hc : c = '\n'
    · rw [if_pos hc] at ht
      rcases List.mem_append.mp ht with ht | ht
      · exact (ih t ht).trans (List.suffix_cons c r)
      · rcases List.mem_singleton.mp ht with rfl
        exact List.suffix_cons c _
    · rw [if_neg hc] at ht
      by_cases hs : isJsSpace c = true
      · rw [if_pos hs] at ht
        exact (ih t ht).trans (List.suffix_cons c r)
      · rw [if_neg hs] at ht
        cases ht

theorem closeAt_suffix {r rem : JStr} (h : closeAt r = some rem) : rem <:+ r := by
  unfold closeAt at h
  cases hsd : stripDashes r with
  | none =>
    rw [hsd] at h
    have h' : (none : Option JStr) = some rem := h
    cases h'
  | some r2 =>
    rw [hsd] at h
    have h' : (wsNlSplits r2).head? = some rem := h
    have h1 : rem <:+ r2 := wsNlSplits_suffix r2 rem (List.mem_of_mem_head? h')
    have h2 : r2 <:+ r := by
      rw [stripDashes_eq_some hsd]
      exact ⟨['-', '-', '-'], rfl⟩
    exact h1.trans h2

theorem findClose_suffix {s : JStr} :
    ∀ {p : JStr × JStr}, findClose s = some p → p.2 <:+ s := by
  induction s with
  | nil => intro p h; cases h
  | cons c r ih =>
    intro p h
    unfold findClose at h
    by_cases hc : c = '\n'
    · rw [if_pos hc] at h
      cases hca : closeAt r with
      | some rem =>
        rw [hca] at h
        have h' : some (([] : JStr), rem) = some p := h
        cases h'
        exact (closeAt_suffix hca).trans (List.suffix_cons c r)
      | none =>
        rw [hca] at h
        cases hfc : findClose r with
        | some q =>
          rw [hfc] at h
          have h' : some (c :: q.1, q.2) = some p := h
          cases h'
          exact (ih hfc).trans (List.suffix_cons c r)
        | none =>
          rw [hfc] at h
          have h' : (none : Option (JStr × JStr)) = some p := h
          cases h'
    · rw [if_neg hc] at h
      cases hfc : findClose r with
      | some q =>
        rw [hfc] at h
        have h' : some (c :: q.1, q.2) = some p := h
        cases h'
        exact (ih hfc).trans (List.suffix_cons c r)
      | none =>
        rw [hfc] at h
        have h' : (none : Option (JStr × JStr)) = some p := h
        cases h'

theorem pickClose_mem {opts : List JStr} {p : JStr × JStr} (h : pickClose opts = some p) :
    ∃ r0 ∈ opts, findClose r0 = some p := by
  induction opts with
  | nil => cases h
  | cons r0 rest ih =>
    unfold pickClose at h
    cases hfc : findClose r0 with
    | some q =>
      rw [hfc] at h
      have h' : some q = some p := h
      cases h'
      exact ⟨r0, List.mem_cons_self _ _, hfc⟩
    | none =>
      rw [hfc] at h
      have h' : pickClose rest = some p := h
      obtain ⟨r1, h1, h2⟩ := ih h'
      exact ⟨r1, List.mem_cons_of_mem _ h1, h2⟩

theorem fmMatch_delim {s : JStr} {p : JStr × JStr} (h : fmMatch s = some p) :
    isDelimLine (firstLine s) = true := by
  unfold fmMatch at h
  cases hsd : stripDashes s with
  | none =>
    rw [hsd] at h
    have h' : (none : Option (JStr × JStr)) = some p := h
    cases h'
  | some r =>
    rw [hsd] at h
    have h' : pickClose (wsNlSplits r) = some p := h
    have hw : wsNlSplits r ≠ [] := by
      intro he
      rw [he] at h'
      cases h'
    rw [stripDashes_eq_some hsd]
    unfold firstLine
    rw [List.takeWhile_cons_of_pos (by decide), List.takeWhile_cons_of_pos (by decide),
      List.takeWhile_cons_of_pos (by decide)]
    show (r.takeWhile (fun c => c ≠ '\n')).all (isJsSpace ·) = true
    rw [List.all_eq_true]
    exact fun c hc => wsNlSplits_all_space r hw c hc

/-- C2: a document whose first line is not a `---` delimiter line is returned
with an empty frontmatter mapping and the whole input, unchanged, as body. -/
theorem claim_C2 (s : JStr) (h : isDelimLine (firstLine s) = false) :
    parseFrontmatter s = ⟨[], s⟩ := by
  unfold parseFrontmatter
  cases hm : fmMatch s with
  | none => rfl
  | some p => exact absurd (fmMatch_delim hm) (by simp [h])

/-- Witness for C2: a document with no delimiter anywhere. -/
theorem claim_C2_witness :
    parseFrontmatter (strL "hello world") = ⟨[], strL "hello world"⟩ :=
  claim_C2 (strL "hello world") (by decide)

/-- C9: the body returned by `parseFrontmatter` is always an unmodified
contiguous suffix of the input: the whole input when no frontmatter block is
recognized, and the text after the closing delimiter otherwise. -/
theorem claim_C9 (s : JStr) : (parseFrontmatter s).content <:+ s := by
  unfold parseFrontmatter
  cases hm : fmMatch s with
  | none => exact List.suffix_refl s
  | some p =>
    obtain ⟨g1, g2⟩ := p
    unfold fmMatch at hm
    cases hsd : stripDashes s with
    | none =>
      rw [hsd] at hm
      have hm' : (none : Option (JStr × JStr)) = some (g1, g2) := hm
      cases hm'
    | some r =>
      rw [hsd] at hm
      have hm' : pickClose (wsNlSplits r) = some (g1, g2) := hm
      obtain ⟨r0, hr0, hfc⟩ := pickClose_mem hm'
      have h1 : g2 <:+ r0 := findClose_suffix hfc
      have h2 : r0 <:+ r := wsNlSplits_suffix r r0 hr0
      have h3 : r <:+ s := by
        rw [stripDashes_eq_some hsd]
        exact ⟨['-', '-', '-'], rfl⟩
      exact h1.trans (h2.trans h3)

/-! ### Lemmas about JavaScript objects and the spread merge -/

theorem find?_map_set (o : Obj) (k : JStr) (v : FMValue)
    (h : o.any (fun p => p.1 = k) = true) :
    (o.map (fun p => if p.1 = k then (k, v) else p)).find? (fun p => p.1 = k) =
      some (k, v) := by
  induction o with
  | nil => simp at h
  | cons p o ih =>
    by_cases hp : p.1 = k
    · simp [List.map_cons, if_pos hp, List.find?_cons_of_pos]
    · have h' : o.any (fun p => p.1 = k) = true := by simpa [hp] using h
      simpa [List.map_cons, if_neg hp, List.find?_cons_of_neg, hp] using ih h'

theorem find?_map_set_other (o : Obj) (k k' : JStr) (v : FMValue) (hne : k' ≠ k) :
    (o.map (fun p => if p.1 = k then (k, v) else p)).find? (fun p => p.1 = k') =
      o.find? (fun p => p.1 = k') := by
  induction o with
  | nil => rfl
  | cons p o ih =>
    by_cases hp : p.1 = k
    · have h1 : ¬ ((k : JStr) = k') := fun he => hne he.symm
      have h2 : ¬ (p.1 = k') := fun he => hne (hp ▸ he).symm
      simp only [List.map_cons, if_pos hp]
      rw [List.find?_cons_of_neg _ (by simpa using h1),
        List.find?_cons_of_neg _ (by simpa using h2)]
      exact ih
    · by_cases hq : p.1 = k'
      · simp only [List.map_cons, if_neg hp]
        rw [List.find?_cons_of_pos _ (by simpa using hq),
          List.find?_cons_of_pos _ (by simpa using hq)]
      · simp only [List.map_cons, if_neg hp]
        rw [List.find?_cons_of_neg _ (by simpa using hq),
          List.find?_cons_of_neg _ (by simpa using hq)]
        exact ih

theorem objGet_objSet_self (o : Obj) (k : JStr) (v : FMValue) :
    objGet (objSet o k v) k = some v := by
  unfold objGet objSet
  by_cases h : o.any (fun p => p.1 = k) = true
  · rw [if_pos h, find?_map_set o k v h]
    rfl
  · rw [if_neg h, List.find?_append]
    have h0 : o.find? (fun p => p.1 = k) = none := by
      rw [List.find?_eq_none]
      intro x hx hc
      exact h (List.any_eq_true.mpr ⟨x, hx, hc⟩)
    rw [h0]
    simp [List.find?]

theorem objGet_objSet_other (o : Obj) (k k' : JStr) (v : FMValue) (hne : k' ≠ k) :
    objGet (objSet o k v) k' = objGet o k' := by
  unfold objGet objSet
  by_cases h : o.any (fun p => p.1 = k) = true
  · rw [if_pos h, find?_map_set_other o k k' v hne]
  · rw [if_neg h, List.find?_append]
    cases hfo : o.find? (fun p => p.1 = k') with
    | some p => simp [hfo]
    | none =>
      have : ¬ ((k : JStr) = k') := fun he => hne he.symm
      simp [hfo, List.find?, this]

theorem objGet_isSome_objSet (o : Obj) (k q : JStr) (v : FMValue)
    (h : (objGet o q).isSome) : (objGet (objSet o k v) q).isSome := by
  by_cases hq : q = k
  · rw [hq, objGet_objSet_self]
    rfl
  · rw [objGet_objSet_other o k q v hq]
    exact h

theorem objGet_isSome_spreadMerge (overlay : Obj) (q : JStr) :
    ∀ base : Obj, (objGet base q).isSome → (objGet (spreadMerge base overlay) q).isSome := by
  induction overlay with
  | nil => exact fun base h => h
  | cons p ov ih =>
    intro base h
    exact ih (objSet base p.1 p.2) (objGet_isSome_objSet base p.1 q p.2 h)

theorem objGet_spreadMerge_notMem (overlay : Obj) (k : JStr) :
    ∀ base : Obj, (∀ p ∈ overlay, p.1 ≠ k) →
      objGet (spreadMerge base overlay) k = objGet base k := by
  induction overlay with
  | nil => exact fun base _ => rfl
  | cons p ov ih =>
    intro base h
    have hstep : spreadMerge base (p :: ov) = spreadMerge (objSet base p.1 p.2) ov := rfl
    rw [hstep, ih (objSet base p.1 p.2) (fun q hq => h q (List.mem_cons_of_mem p hq))]
    exact objGet_objSet_other base p.1 k p.2 fun he =>
      h p (List.mem_cons_self p ov) he.symm

theorem objGet_spreadMerge_overlay (overlay : Obj) (k : JStr) (v : FMValue) :
    ∀ base : Obj, (overlay.map Prod.fst).Nodup → objGet overlay k = some v →
      objGet (spreadMerge base overlay) k = some v := by
  induction overlay with
  | nil => intro base _ h; simp [objGet] at h
  | cons p ov ih =>
    intro base hnd h
    rw [List.map_cons, List.nodup_cons] at hnd
    have hstep : spreadMerge base (p :: ov) = spreadMerge (objSet base p.1 p.2) ov := rfl
    rw [hstep]
    by_cases hp : p.1 = k
    · have hv : p.2 = v := by
        unfold objGet at h
        rw [List.find?_cons_of_pos _ (by simpa using hp)] at h
        simpa using h
      have hnot : ∀ q ∈ ov, q.1 ≠ k := by
        intro q hq he
        have : p.1 ∈ ov.map Prod.fst := by
          rw [hp, ← he]
          exact List.mem_map_of_mem Prod.fst hq
        exact hnd.1 this
      rw [objGet_spreadMerge_notMem ov k (objSet base p.1 p.2) hnot, ← hp, ← hv]
      exact objGet_objSet_self base p.1 p.2
    · have h' : objGet ov k = some v := by
        unfold objGet at h ⊢
        rw [List.find?_cons_of_neg _ (by simpa using hp)] at h
        exact h
      exact ih (objSet base p.1 p.2) hnd.2 h'

/-- C3: the metadata merge `{ ...postMeta, ...frontmatter }` keeps every base
key, lets an overlay binding win wherever the overlay has the key, and leaves
base keys not present in the overlay bound to their base values.  The model
is a total Lean function, reflecting that the source expression has no side
effects and no error path. -/
theorem claim_C3 (base overlay : Obj) (hnd : (overlay.map Prod.fst).Nodup) :
    (∀ k, (objGet base k).isSome → (objGet (spreadMerge base overlay) k).isSome) ∧
    (∀ k v, objGet overlay k = some v → objGet (spreadMerge base overlay) k = some v) ∧
    (∀ k, objGet overlay k = none → objGet (spreadMerge base overlay) k = objGet base k) := by
  refine ⟨fun k h => objGet_isSome_spreadMerge overlay k base h,
    fun k v h => objGet_spreadMerge_overlay overlay k v base hnd h,
    fun k h => objGet_spreadMerge_notMem overlay k base ?_⟩
  intro p hp he
  have h0 : overlay.find? (fun q => q.1 = k) = none := by
    unfold objGet at h
    exact Option.map_eq_none'.mp h
  have := List.find?_eq_none.mp h0 p hp
  simp [he] at this

/-- Witness for C3: the spec's own example, base
`{title:"X", date:"2020-01-01"}` overlaid with `{title:"Y"}`. -/
theorem claim_C3_witness :
    spreadMerge
        [(strL "title", FMValue.str (strL "X")), (strL "date", FMValue.str (strL "2020-01-01"))]
        [(strL "title", FMValue.str (strL "Y"))] =
      [(strL "title", FMValue.str (strL "Y")), (strL "date", FMValue.str (strL "2020-01-01"))] ∧
    objGet (spreadMerge
        [(strL "title", FMValue.str (strL "X")), (strL "date", FMValue.str (strL "2020-01-01"))]
        [(strL "title", FMValue.str (strL "Y"))]) (strL "title") =
      some (FMValue.str (strL "Y")) :=
  ⟨by decide,
    (claim_C3
      [(strL "title", FMValue.str (strL "X")), (strL "date", FMValue.str (strL "2020-01-01"))]
      [(strL "title", FMValue.str (strL "Y"))] (by decide)).2.1
      (strL "title") (FMValue.str (strL "Y")) (by decide)⟩

/-! ### The post renderer: error classification and fetch ordering -/

/-- C5: with the catalog loaded and the requested slug matching no catalog
entry, `loadBlogPost` shows the not-found error and never issues the
document fetch. -/
theorem claim_C5 (ps : List Obj) (sl : JStr) (md : Except Unit (Bool × JStr))
    (hsl : sl ≠ [])
    (habs : ∀ p ∈ ps, objGet p slugKey ≠ some (.str sl)) :
    loadBlogPost (some sl) (.ok ps) md = ⟨.errorNotFound, false⟩ := by
  have hf : ps.find? (fun p => objGet p slugKey = some (.str sl)) = none := by
    rw [List.find?_eq_none]
    intro p hp hc
    exact habs p hp (by simpa using hc)
  simp only [loadBlogPost, if_neg hsl, hf]

/-- Witness for C5: a one-entry catalog with slug `a`, queried with slug `b`. -/
theorem claim_C5_witness :
    loadBlogPost (some (strL "b")) (.ok [[(strL "slug", FMValue.str (strL "a"))]])
        (.ok (true, [])) = ⟨.errorNotFound, false⟩ :=
  claim_C5 [[(strL "slug", FMValue.str (strL "a"))]] (strL "b") (.ok (true, []))
    (by decide) (by decide)

/-- C6 counterexample: when the catalog fetch fails (the `fetch` or
`response.json()` call throws), control lands in the catch-all handler and
the generic load-failure message is shown — not the not-found message the
claim predicts. -/
theorem claim_C6_counterexample :
    loadBlogPost (some (strL "x")) (.error ()) (.ok (true, [])) =
      ⟨.errorLoadFailed, false⟩ ∧
    (loadBlogPost (some (strL "x")) (.error ()) (.ok (true, []))).outcome ≠
      Outcome.errorNotFound := by
  decide

/-- C6 (amended): whenever the catalog fetch fails during post rendering, the
renderer shows the generic load-failure error — the same classification as a
failed document fetch — and the not-found error is reserved for a missing
slug parameter or a slug absent from a loaded catalog. -/
theorem claim_C6 (sl : JStr) (md : Except Unit (Bool × JStr)) (hsl : sl ≠ []) :
    loadBlogPost (some sl) (.error ()) md = ⟨.errorLoadFailed, false⟩ := by
  simp only [loadBlogPost, if_neg hsl]

/-- Witness for C6. -/
theorem claim_C6_witness :
    loadBlogPost (some (strL "x")) (.error ()) (.ok (true, [])) =
      ⟨.errorLoadFailed, false⟩ :=
  claim_C6 (strL "x") (.ok (true, [])) (by decide)

/-! ### The content renderer's highlight callback -/

/-- C8: the highlight callback attempts language-specific highlighting only
when a hint is present (a non-empty string) and recognized; when the hint is
absent, unrecognized, or `hljs.highlight` raises, the result is the automatic
detection `hljs.highlightAuto(code).value`.  Totality of the model reflects
that a highlighting error is swallowed rather than propagated. -/
theorem claim_C8 (getLanguage : JStr → Bool) (hlL : JStr → JStr → Except Unit JStr)
    (hA : JStr → JStr) (code : JStr) :
    (highlightFn getLanguage hlL hA code none = hA code) ∧
    (∀ l, l = [] ∨ getLanguage l = false →
      highlightFn getLanguage hlL hA code (some l) = hA code) ∧
    (∀ l e, l ≠ [] → getLanguage l = true → hlL l code = .error e →
      highlightFn getLanguage hlL hA code (some l) = hA code) ∧
    (∀ l v, l ≠ [] → getLanguage l = true → hlL l code = .ok v →
      highlightFn getLanguage hlL hA code (some l) = v) := by
  refine ⟨rfl, ?_, ?_, ?_⟩
  · intro l h
    rcases h with h | h
    · simp [highlightFn, h]
    · simp [highlightFn, h]
  · intro l e h1 h2 h3
    simp [highlightFn, h2, h3, List.isEmpty_eq_false_iff_exists_mem.mpr
      (List.exists_mem_of_ne_nil l h1)]
  · intro l v h1 h2 h3
    simp [highlightFn, h2, h3, List.isEmpty_eq_false_iff_exists_mem.mpr
      (List.exists_mem_of_ne_nil l h1)]

/-- Witness for C8: an unrecognized-by-error path falls back to automatic
detection on a concrete input. -/
theorem claim_C8_witness :
    highlightFn (fun _ => true) (fun _ _ => Except.error ()) (fun c => c)
      (strL "x") (some (strL "js")) = strL "x" :=
  (claim_C8 (fun _ => true) (fun _ _ => Except.error ()) (fun c => c)
    (strL "x")).2.2.1 (strL "js") () (by decide) rfl rfl

/-! ### The well-formed frontmatter block -/

theorem splitOnChar_ne_nil (sep : Char) (l : JStr) : splitOnChar sep l ≠ [] := by
  induction l with
  | nil => simp [splitOnChar]
  | cons c r ih =>
    unfold splitOnChar
    cases h : splitOnChar sep r with
    | nil => exact absurd h ih
    | cons hd tl =>
      show (if c = sep then [] :: hd :: tl else (c :: hd) :: tl) ≠ []
      by_cases hc : c = sep
      · rw [if_pos hc]
        simp
      · rw [if_neg hc]
        simp

theorem splitOnChar_no_sep (sep : Char) (l : JStr) (h : sep ∉ l) :
    splitOnChar sep l = [l] := by
  induction l with
  | nil => rfl
  | cons c r ih =>
    have hc : ¬ (c = sep) := fun he => h (he ▸ List.mem_cons_self c r)
    have hr : splitOnChar sep r = [r] := ih fun hm => h (List.mem_cons_of_mem c hm)
    unfold splitOnChar
    rw [hr]
    show (if c = sep then [] :: r :: [] else (c :: r) :: []) = [c :: r]
    rw [if_neg hc]

theorem splitOnChar_cons (sep c : Char) (r : JStr) :
    splitOnChar sep (c :: r) =
      match splitOnChar sep r with
      | [] => [[]]
      | h :: t => if c = sep then [] :: h :: t else (c :: h) :: t := rfl

theorem splitOnChar_append (sep : Char) (l t : JStr) (h : sep ∉ l) :
    splitOnChar sep (l ++ sep :: t) = l :: splitOnChar sep t := by
  induction l with
  | nil =>
    show splitOnChar sep (sep :: t) = [] :: splitOnChar sep t
    rw [splitOnChar_cons]
    cases hs : splitOnChar sep t with
    | nil => exact absurd hs (splitOnChar_ne_nil sep t)
    | cons hd tl =>
      show (if sep = sep then [] :: hd :: tl else (sep :: hd) :: tl) = [] :: hd :: tl
      rw [if_pos rfl]
  | cons c l ih =>
    have hc : ¬ (c = sep) := fun he => h (he ▸ List.mem_cons_self c l)
    have hr := ih fun hm => h (List.mem_cons_of_mem c hm)
    show splitOnChar sep (c :: (l ++ sep :: t)) = (c :: l) :: splitOnChar sep t
    rw [splitOnChar_cons, hr]
    show (if c = sep then [] :: l :: splitOnChar sep t else (c :: l) :: splitOnChar sep t) =
      (c :: l) :: splitOnChar sep t
    rw [if_neg hc]

theorem splitOnChar_joinSep (sep : Char) (ls : List JStr) (hne : ls ≠ [])
    (h : ∀ l ∈ ls, sep ∉ l) : splitOnChar sep (joinSep sep ls) = ls := by
  induction ls with
  | nil => exact absurd rfl hne
  | cons l ls ih =>
    cases ls with
    | nil => exact splitOnChar_no_sep sep l (h l (List.mem_cons_self l []))
    | cons l2 ls2 =>
      have hj : joinSep sep (l :: l2 :: ls2) = l ++ sep :: joinSep sep (l2 :: ls2) := rfl
      rw [hj, splitOnChar_append sep l _ (h l (List.mem_cons_self _ _)),
        ih (by simp) (fun q hq => h q (List.mem_cons_of_mem l hq))]

theorem takeWhile_append_eq (p : Char → Bool) (l t : JStr) (h : ∃ x ∈ l, p x = false) :
    (l ++ t).takeWhile p = l.takeWhile p := by
  induction l with
  | nil =>
    obtain ⟨x, hx, _⟩ := h
    cases hx
  | cons c l ih =>
    by_cases hc : p c = true
    · have h' : ∃ x ∈ l, p x = false := by
        obtain ⟨x, hx, hpx⟩ := h
        rcases List.mem_cons.mp hx with rfl | hx
        · rw [hc] at hpx
          cases hpx
        · exact ⟨x, hx, hpx⟩
      rw [List.cons_append, List.takeWhile_cons_of_pos hc, List.takeWhile_cons_of_pos hc, ih h']
    · rw [List.cons_append, List.takeWhile_cons_of_neg hc, List.takeWhile_cons_of_neg hc]

theorem wsNlSplits_append_nil (l t : JStr) (hnl : '\n' ∉ l)
    (hx : ∃ x ∈ l, isJsSpace x = false) : wsNlSplits (l ++ t) = [] := by
  apply wsNlSplits_eq_nil
  rw [takeWhile_append_eq (isJsSpace ·) l t hx]
  intro hm
  exact hnl (List.takeWhile_subset _ hm)

theorem closeAt_close (body : JStr) (hb : '\n' ∉ body.takeWhile (isJsSpace ·)) :
    closeAt ('-' :: '-' :: '-' :: '\n' :: body) = some body := by
  have h1 : stripDashes ('-' :: '-' :: '-' :: '\n' :: body) = some ('\n' :: body) := by
    simp [stripDashes]
  unfold closeAt
  rw [h1]
  show (wsNlSplits ('\n' :: body)).head? = some body
  unfold wsNlSplits
  rw [if_pos rfl, wsNlSplits_eq_nil body hb]
  rfl

theorem closeAt_line_none (l t : JStr) (h1 : '\n' ∉ l) (h2 : ':' ∈ l) :
    closeAt (l ++ t) = none := by
  cases hsd : stripDashes (l ++ t) with
  | none =>
    unfold closeAt
    rw [hsd]
  | some r2 =>
    have heq := stripDashes_eq_some hsd
    rcases l with _ | ⟨a, _ | ⟨b, _ | ⟨c, l3⟩⟩⟩
    · exact absurd h2 (List.not_mem_nil _)
    · rw [List.cons_append, List.nil_append] at heq
      have ha : a = '-' := (List.cons.injEq _ _ _ _).mp heq |>.1
      rcases List.mem_singleton.mp h2 with rfl
      cases ha
    · rw [List.cons_append, List.cons_append, List.nil_append] at heq
      obtain ⟨ha, heq2⟩ := (List.cons.injEq _ _ _ _).mp heq
      obtain ⟨hb2, _⟩ := (List.cons.injEq _ _ _ _).mp heq2
      rcases List.mem_cons.mp h2 with rfl | h2'
      · cases ha
      · rcases List.mem_singleton.mp h2' with rfl
        cases hb2
    · simp only [List.cons_append] at heq
      obtain ⟨ha, heq2⟩ := (List.cons.injEq _ _ _ _).mp heq
      obtain ⟨hb2, heq3⟩ := (List.cons.injEq _ _ _ _).mp heq2
      obtain ⟨hc2, heq4⟩ := (List.cons.injEq _ _ _ _).mp heq3
      have hcolon : ':' ∈ l3 := by
        rcases List.mem_cons.mp h2 with rfl | h2'
        · cases ha
        · rcases List.mem_cons.mp h2' with rfl | h2''
          · cases hb2
          · rcases List.mem_cons.mp h2'' with rfl | h2'''
            · cases hc2
            · exact h2'''
      have hnl3 : '\n' ∉ l3 := fun hm =>
        h1 (List.mem_cons_of_mem a (List.mem_cons_of_mem b (List.mem_cons_of_mem c hm)))
      unfold closeAt
      rw [hsd]
      show (wsNlSplits r2).head? = none
      rw [← heq4, wsNlSplits_append_nil l3 t hnl3 ⟨':', hcolon, by decide⟩]
      rfl

theorem findClose_cons (c : Char) (r : JStr) :
    findClose (c :: r) =
      if c = '\n' then
        match closeAt r with
        | some rem => some ([], rem)
        | none =>
          match findClose r with
          | some p => some (c :: p.1, p.2)
          | none => none
      else
        match findClose r with
        | some p => some (c :: p.1, p.2)
        | none => none := rfl

theorem findClose_line (l rest : JStr) (h : '\n' ∉ l) :
    findClose (l ++ '\n' :: rest) =
      match closeAt rest with
      | some rem => some (l, rem)
      | none =>
        match findClose rest with
        | some p => some (l ++ '\n' :: p.1, p.2)
        | none => none := by
  induction l with
  | nil =>
    show findClose ('\n' :: rest) = _
    rw [findClose_cons, if_pos rfl]
    cases hca : closeAt rest with
    | some rem => rfl
    | none =>
      cases hfc : findClose rest with
      | some p => rfl
      | none => rfl
  | cons a l ih =>
    have ha : ¬ (a = '\n') := fun he => h (he ▸ List.mem_cons_self a l)
    have h' : '\n' ∉ l := fun hm => h (List.mem_cons_of_mem a hm)
    show findClose (a :: (l ++ '\n' :: rest)) = _
    rw [findClose_cons, if_neg ha, ih h']
    cases hca : closeAt rest with
    | some rem => rfl
    | none =>
      cases hfc : findClose rest with
      | some p => rfl
      | none => rfl

theorem findClose_joined (ls : List JStr) (body : JStr) (hne : ls ≠ [])
    (hl : ∀ l ∈ ls, '\n' ∉ l ∧ ':' ∈ l) (hb : '\n' ∉ body.takeWhile (isJsSpace ·)) :
    findClose (joinSep '\n' ls ++ '\n' :: '-' :: '-' :: '-' :: '\n' :: body) =
      some (joinSep '\n' ls, body) := by
  induction ls with
  | nil => exact absurd rfl hne
  | cons l ls ih =>
    cases ls with
    | nil =>
      show findClose (l ++ '\n' :: ('-' :: '-' :: '-' :: '\n' :: body)) = some (l, body)
      rw [findClose_line l _ (hl l (List.mem_cons_self _ _)).1, closeAt_close body hb]
    | cons l2 ls2 =>
      have hjoin : joinSep '\n' (l :: l2 :: ls2) = l ++ '\n' :: joinSep '\n' (l2 :: ls2) := rfl
      have hl2 := hl l2 (List.mem_cons_of_mem l (List.mem_cons_self _ _))
      have hrest : ∃ t : JStr,
          joinSep '\n' (l2 :: ls2) ++ '\n' :: '-' :: '-' :: '-' :: '\n' :: body = l2 ++ t := by
        cases ls2 with
        | nil => exact ⟨'\n' :: '-' :: '-' :: '-' :: '\n' :: body, rfl⟩
        | cons l3 ls3 =>
          refine ⟨'\n' :: joinSep '\n' (l3 :: ls3) ++ '\n' :: '-' :: '-' :: '-' :: '\n' :: body, ?_⟩
          show joinSep '\n' (l2 :: l3 :: ls3) ++ _ = _
          rw [show joinSep '\n' (l2 :: l3 :: ls3) = l2 ++ '\n' :: joinSep '\n' (l3 :: ls3) from rfl]
          simp [List.append_assoc]
      obtain ⟨t, ht⟩ := hrest
      have hca : closeAt (joinSep '\n' (l2 :: ls2) ++ '\n' :: '-' :: '-' :: '-' :: '\n' :: body) =
          none := by
        rw [ht]
        exact closeAt_line_none l2 t hl2.1 hl2.2
      have hfc := ih (by simp) (fun q hq => hl q (List.mem_cons_of_mem l hq))
      have hshape : joinSep '\n' (l :: l2 :: ls2) ++ '\n' :: '-' :: '-' :: '-' :: '\n' :: body =
          l ++ '\n' :: (joinSep '\n' (l2 :: ls2) ++ '\n' :: '-' :: '-' :: '-' :: '\n' :: body) := by
        rw [hjoin]
        simp [List.append_assoc]
      rw [hshape, findClose_line l _ (hl l (List.mem_cons_self _ _)).1, hca, hfc, hjoin]

theorem joinSep_cons_exists (l : JStr) (ls : List JStr) (x : JStr) :
    ∃ t : JStr, joinSep '\n' (l :: ls) ++ x = l ++ t := by
  cases ls with
  | nil => exact ⟨x, rfl⟩
  | cons l2 ls2 =>
    refine ⟨'\n' :: (joinSep '\n' (l2 :: ls2) ++ x), ?_⟩
    rw [show joinSep '\n' (l :: l2 :: ls2) = l ++ '\n' :: joinSep '\n' (l2 :: ls2) from rfl]
    simp [List.append_assoc]

theorem fmMatch_wellFormed (ls : List JStr) (body : JStr) (hne : ls ≠ [])
    (hl : ∀ l ∈ ls, '\n' ∉ l ∧ ':' ∈ l) (hb : '\n' ∉ body.takeWhile (isJsSpace ·)) :
    fmMatch ('-' :: '-' :: '-' :: '\n' ::
        (joinSep '\n' ls ++ '\n' :: '-' :: '-' :: '-' :: '\n' :: body)) =
      some (joinSep '\n' ls, body) := by
  have h1 : stripDashes ('-' :: '-' :: '-' :: '\n' ::
      (joinSep '\n' ls ++ '\n' :: '-' :: '-' :: '-' :: '\n' :: body)) =
      some ('\n' :: (joinSep '\n' ls ++ '\n' :: '-' :: '-' :: '-' :: '\n' :: body)) := by
    simp [stripDashes]
  unfold fmMatch
  rw [h1]
  show pickClose (wsNlSplits ('\n' ::
    (joinSep '\n' ls ++ '\n' :: '-' :: '-' :: '-' :: '\n' :: body))) = _
  have h2 : wsNlSplits (joinSep '\n' ls ++ '\n' :: '-' :: '-' :: '-' :: '\n' :: body) = [] := by
    cases ls with
    | nil => exact absurd rfl hne
    | cons l ls' =>
      have hl1 := hl l (List.mem_cons_self _ _)
      obtain ⟨t, ht⟩ := joinSep_cons_exists l ls' ('\n' :: '-' :: '-' :: '-' :: '\n' :: body)
      rw [ht]
      exact wsNlSplits_append_nil l t hl1.1 ⟨':', hl1.2, by decide⟩
  have h3 : wsNlSplits ('\n' ::
      (joinSep '\n' ls ++ '\n' :: '-' :: '-' :: '-' :: '\n' :: body)) =
      [joinSep '\n' ls ++ '\n' :: '-' :: '-' :: '-' :: '\n' :: body] := by
    unfold wsNlSplits
    rw [if_pos rfl, h2]
    rfl
  rw [h3]
  unfold pickClose
  rw [findClose_joined ls body hne hl hb]

theorem parseFrontmatter_wellFormed (ls : List JStr) (body : JStr) (hne : ls ≠ [])
    (hl : ∀ l ∈ ls, '\n' ∉ l ∧ ':' ∈ l) (hb : '\n' ∉ body.takeWhile (isJsSpace ·)) :
    parseFrontmatter ('-' :: '-' :: '-' :: '\n' ::
        (joinSep '\n' ls ++ '\n' :: '-' :: '-' :: '-' :: '\n' :: body)) =
      ⟨parseLines ls, body⟩ := by
  unfold parseFrontmatter
  rw [fmMatch_wellFormed ls body hne hl hb]
  show FMResult.mk (parseFMText (joinSep '\n' ls)) body = FMResult.mk (parseLines ls) body
  unfold parseFMText
  rw [splitOnChar_joinSep '\n' ls hne (fun l h => (hl l h).1)]

/-- C1 (amended): a document made of an opening delimiter line, one or more
`key: value` lines, a closing delimiter line, and then a body whose leading
whitespace contains no newline, parses into exactly those lines' bindings with
the remaining text as body.  With zero lines between the delimiters the regex
does not match and the whole input is returned as body (see the
counterexample), so the zero-line case of the original claim is excluded. -/
theorem claim_C1 (ls : List JStr) (body : JStr) (hne : ls ≠ [])
    (hl : ∀ l ∈ ls, isKVLine l) (hb : '\n' ∉ body.takeWhile (isJsSpace ·)) :
    parseFrontmatter ('-' :: '-' :: '-' :: '\n' ::
        (joinSep '\n' ls ++ '\n' :: '-' :: '-' :: '-' :: '\n' :: body)) =
      ⟨parseLines ls, body⟩ :=
  parseFrontmatter_wellFormed ls body hne (fun l h => ⟨(hl l h).1, (hl l h).2.1⟩) hb

/-- C1 counterexample: with zero key-value lines between the delimiters
(`---\n---\nbody`) the regex does not match, so the parser returns the whole
input as body rather than `body`; additionally, a body beginning with a
newline has that newline absorbed by the closing delimiter's `\s*`. -/
theorem claim_C1_counterexample :
    parseFrontmatter (strL "---\n---\nbody") = ⟨[], strL "---\n---\nbody"⟩ ∧
    (parseFrontmatter (strL "---\n---\nbody")).content ≠ strL "body" ∧
    (parseFrontmatter (strL "---\na: b\n---\n\nX")).content = strL "X" ∧
    strL "X" ≠ strL "\nX" := by decide

/-- Witness for C1: a one-line frontmatter block, with the cons-level input
shown equal to the readable document `---\ntitle: Hi\n---\nBody`. -/
theorem claim_C1_witness :
    parseFrontmatter ('-' :: '-' :: '-' :: '\n' ::
        (joinSep '\n' [strL "title: Hi"] ++ '\n' :: '-' :: '-' :: '-' :: '\n' :: strL "Body")) =
      ⟨parseLines [strL "title: Hi"], strL "Body"⟩ ∧
    parseLines [strL "title: Hi"] = [(strL "title", FMValue.str (strL "Hi"))] ∧
    ('-' :: '-' :: '-' :: '\n' ::
        (joinSep '\n' [strL "title: Hi"] ++ '\n' :: '-' :: '-' :: '-' :: '\n' :: strL "Body")) =
      strL "---\ntitle: Hi\n---\nBody" :=
  ⟨claim_C1 [strL "title: Hi"] (strL "Body") (by decide) (by decide) (by decide),
    by decide, by decide⟩

/-! ### Bracket-list values -/

theorem dropWhile_head_not (p : Char → Bool) (v : JStr)
    (h : ∀ c, v.head? = some c → p c = false) : v.dropWhile p = v := by
  cases v with
  | nil => rfl
  | cons c r => rw [List.dropWhile_cons_of_neg (by simp [h c rfl])]

theorem trimRight_eq (w : JStr) (h : ∀ c, w.getLast? = some c → isJsSpace c = false) :
    (w.reverse.dropWhile (isJsSpace ·)).reverse = w := by
  rw [dropWhile_head_not _ w.reverse fun c hc => h c (by rwa [List.head?_reverse] at hc),
    List.reverse_reverse]

theorem parseLine_bracket (key inner : JStr) (hk0 : key ≠ []) (hk1 : ':' ∉ key) :
    parseLine (key ++ ':' :: ' ' :: '[' :: (inner ++ [']'])) =
      some (jsTrim key,
        .list ((splitOnChar ',' inner).map (fun v => stripQuotes (jsTrim v)))) := by
  have hci : (key ++ ':' :: ' ' :: '[' :: (inner ++ [']'])).findIdx (· == ':') = key.length := by
    rw [List.findIdx_append]
    have h1 : key.findIdx (· == ':') = key.length :=
      List.findIdx_eq_length_of_false fun c hc => by
        simp only [beq_eq_false_iff_ne, ne_eq]
        exact fun he => hk1 (he ▸ hc)
    have h2 : ((':' :: ' ' :: '[' :: (inner ++ [']'])).findIdx (· == ':')) = 0 := by
      rw [List.findIdx_cons]
      simp
    rw [h1, h2, if_neg (lt_irrefl _)]
    exact Nat.zero_add _
  have hlen : key.length < (key ++ ':' :: ' ' :: '[' :: (inner ++ [']'])).length := by
    rw [List.length_append]
    have : 0 < (':' :: ' ' :: '[' :: (inner ++ [']'])).length := by simp
    omega
  have htrim : jsTrim (' ' :: '[' :: (inner ++ [']'])) = '[' :: (inner ++ [']']) := by
    unfold jsTrim
    rw [List.dropWhile_cons_of_pos (by decide), List.dropWhile_cons_of_neg (by decide)]
    exact trimRight_eq _ fun c hc => by
      rw [show ('[' :: (inner ++ [']'])) = ('[' :: inner) ++ [']'] from rfl,
        List.getLast?_concat] at hc
      cases hc
      decide
  have hlast : ('[' :: (inner ++ [']'])).getLast? = some ']' := by
    rw [show ('[' :: (inner ++ [']'])) = ('[' :: inner) ++ [']'] from rfl]
    exact List.getLast?_concat _
  have hquote : stripQuotes ('[' :: (inner ++ [']'])) = '[' :: (inner ++ [']']) := by
    have h1 : dropLeadQuote ('[' :: (inner ++ [']'])) = '[' :: (inner ++ [']']) := by
      show (if isQuote '[' then inner ++ [']'] else '[' :: (inner ++ [']'])) = _
      rw [if_neg (by decide)]
    unfold stripQuotes
    rw [h1]
    unfold dropTrailQuote
    rw [hlast]
    show (if isQuote ']' then ('[' :: (inner ++ [']'])).dropLast
      else ('[' :: (inner ++ [']']))) = _
    rw [if_neg (by decide)]
  simp only [parseLine]
  rw [hci, if_pos ⟨List.length_pos.mpr hk0, hlen⟩, List.take_left, List.drop_append 1]
  rw [show (':' :: ' ' :: '[' :: (inner ++ [']'])).drop 1 = ' ' :: '[' :: (inner ++ [']'])
    from rfl]
  rw [htrim, hquote]
  rw [if_pos ⟨rfl, hlast⟩]
  rw [show ('[' :: (inner ++ [']'])).drop 1 = inner ++ [']'] from rfl, List.dropLast_concat]

theorem parseLines_singleton (line : JStr) (k : JStr) (v : FMValue)
    (h : parseLine line = some (k, v)) : parseLines [line] = [(k, v)] := by
  show (match parseLine line with
    | some (k, v) => objSet [] k v
    | none => ([] : Obj)) = [(k, v)]
  rw [h]
  show objSet [] k v = [(k, v)]
  unfold objSet
  rw [if_neg (by simp)]
  rfl

theorem parseFrontmatter_bracketLine (key inner body : JStr)
    (hk0 : key ≠ []) (hk1 : ':' ∉ key) (hk2 : '\n' ∉ key) (hi : '\n' ∉ inner)
    (hb : '\n' ∉ body.takeWhile (isJsSpace ·)) :
    parseFrontmatter ('-' :: '-' :: '-' :: '\n' ::
        ((key ++ ':' :: ' ' :: '[' :: (inner ++ [']'])) ++
          '\n' :: '-' :: '-' :: '-' :: '\n' :: body)) =
      ⟨[(jsTrim key, .list ((splitOnChar ',' inner).map (fun v => stripQuotes (jsTrim v))))],
        body⟩ := by
  have hnl : '\n' ∉ key ++ ':' :: ' ' :: '[' :: (inner ++ [']']) := by
    simp only [List.mem_append, List.mem_cons, List.mem_singleton]
    push_neg
    exact ⟨hk2, by decide, by decide, by decide, hi, by decide⟩
  have h := parseFrontmatter_wellFormed [key ++ ':' :: ' ' :: '[' :: (inner ++ [']'])] body
    (by simp)
    (fun l hl' => by
      rw [List.mem_singleton] at hl'
      subst hl'
      exact ⟨hnl, List.mem_append_right _ (List.mem_cons_self _ _)⟩)
    hb
  have h' : parseFrontmatter ('-' :: '-' :: '-' :: '\n' ::
      ((key ++ ':' :: ' ' :: '[' :: (inner ++ [']'])) ++
        '\n' :: '-' :: '-' :: '-' :: '\n' :: body)) =
      ⟨parseLines [key ++ ':' :: ' ' :: '[' :: (inner ++ [']'])], body⟩ := h
  rw [h', parseLines_singleton _ _ _ (parseLine_bracket key inner hk0 hk1)]

/-- C4: for a well-formed frontmatter block whose line has a bracketed value,
`key: [inner]`, the parser binds the (trimmed) key to the ordered sequence
obtained by splitting `inner` on commas, each element independently trimmed
and then stripped of surrounding quotes. -/
theorem claim_C4 (key inner body : JStr)
    (hk0 : key ≠ []) (hk1 : ':' ∉ key) (hk2 : '\n' ∉ key) (hi : '\n' ∉ inner)
    (hb : '\n' ∉ body.takeWhile (isJsSpace ·)) :
    parseFrontmatter ('-' :: '-' :: '-' :: '\n' ::
        ((key ++ ':' :: ' ' :: '[' :: (inner ++ [']'])) ++
          '\n' :: '-' :: '-' :: '-' :: '\n' :: body)) =
      ⟨[(jsTrim key, .list ((splitOnChar ',' inner).map (fun v => stripQuotes (jsTrim v))))],
        body⟩ :=
  parseFrontmatter_bracketLine key inner body hk0 hk1 hk2 hi hb

/-- Witness for C4: the spec's example `tags: [a, b, c]` yields the sequence
`["a","b","c"]`; the cons-level input is shown equal to the readable document. -/
theorem claim_C4_witness :
    parseFrontmatter ('-' :: '-' :: '-' :: '\n' ::
        ((strL "tags" ++ ':' :: ' ' :: '[' :: (strL "a, b, c" ++ [']'])) ++
          '\n' :: '-' :: '-' :: '-' :: '\n' :: strL "X")) =
      ⟨[(jsTrim (strL "tags"),
          FMValue.list ((splitOnChar ',' (strL "a, b, c")).map
            (fun v => stripQuotes (jsTrim v))))], strL "X"⟩ ∧
    (splitOnChar ',' (strL "a, b, c")).map (fun v => stripQuotes (jsTrim v)) =
      [strL "a", strL "b", strL "c"] ∧
    ('-' :: '-' :: '-' :: '\n' ::
        ((strL "tags" ++ ':' :: ' ' :: '[' :: (strL "a, b, c" ++ [']'])) ++
          '\n' :: '-' :: '-' :: '-' :: '\n' :: strL "X")) =
      strL "---\ntags: [a, b, c]\n---\nX" :=
  ⟨claim_C4 (strL "tags") (strL "a, b, c") (strL "X")
      (by decide) (by decide) (by decide) (by decide) (by decide),
    by decide, by decide⟩

/-- C10: a frontmatter line whose value is exactly `[]` binds the key to the
one-element sequence containing the empty string (because `''.split(',')` is
`['']`), and, in general, the bracket-list rule can never produce an empty
sequence. -/
theorem claim_C10 (key body : JStr) (hk0 : key ≠ []) (hk1 : ':' ∉ key) (hk2 : '\n' ∉ key)
    (hb : '\n' ∉ body.takeWhile (isJsSpace ·)) :
    parseFrontmatter ('-' :: '-' :: '-' :: '\n' ::
        ((key ++ ':' :: ' ' :: '[' :: [']']) ++ '\n' :: '-' :: '-' :: '-' :: '\n' :: body)) =
      ⟨[(jsTrim key, .list [[]])], body⟩ ∧
    (∀ line k l, parseLine line = some (k, FMValue.list l) → l ≠ []) := by
  constructor
  · exact parseFrontmatter_bracketLine key [] body hk0 hk1 hk2 (by simp) hb
  · intro line k l h
    simp only [parseLine] at h
    split at h
    · split at h
      · cases h
        intro he
        exact splitOnChar_ne_nil ',' _ (List.map_eq_nil_iff.mp he)
      · cases h
    · cases h

/-- Witness for C10: the line `k: []` end to end. -/
theorem claim_C10_witness :
    parseFrontmatter ('-' :: '-' :: '-' :: '\n' ::
        ((strL "k" ++ ':' :: ' ' :: '[' :: [']']) ++
          '\n' :: '-' :: '-' :: '-' :: '\n' :: strL "B")) =
      ⟨[(jsTrim (strL "k"), FMValue.list [[]])], strL "B"⟩ ∧
    (∀ line k l, parseLine line = some (k, FMValue.list l) → l ≠ []) :=
  claim_C10 (strL "k") (strL "B") (by decide) (by decide) (by decide) (by decide)

/-! ### The list renderer's sort -/

theorem insertPost_perm (a : Obj) (l : List Obj) : List.Perm (insertPost a l) (a :: l) := by
  induction l with
  | nil => rfl
  | cons b l ih =>
    unfold insertPost
    by_cases h : dateLe a b = true
    · rw [if_pos h]
    · rw [if_neg h]
      exact (ih.cons b).trans (List.Perm.swap a b l)

theorem sortPosts_perm (l : List Obj) : List.Perm (sortPosts l) l := by
  induction l with
  | nil => rfl
  | cons a l ih => exact (insertPost_perm a (sortPosts l)).trans (ih.cons a)

theorem dateLe_iff (a b : Obj) (ha : (postDate a).isSome) (hb : (postDate b).isSome) :
    dateLe a b = true ↔ keyD b ≤ keyD a := by
  obtain ⟨x, hx⟩ := Option.isSome_iff_exists.mp ha
  obtain ⟨y, hy⟩ := Option.isSome_iff_exists.mp hb
  unfold dateLe dateCmp keyD
  rw [hx, hy]
  simp [sub_nonpos]

theorem not_dateLe {a b : Obj} (h : dateLe a b = false) :
    (postDate a).isSome ∧ (postDate b).isSome ∧ keyD a < keyD b := by
  unfold dateLe dateCmp at h
  cases ha : postDate a with
  | none => rw [ha] at h; simp at h
  | some x =>
    cases hb : postDate b with
    | none => rw [ha, hb] at h; simp at h
    | some y =>
      rw [ha, hb] at h
      simp only [decide_eq_false_iff_not, not_le] at h
      refine ⟨by simp [ha], by simp [hb], ?_⟩
      unfold keyD
      rw [ha, hb]
      simpa using h

theorem insertPost_pairwise (a : Obj) (hva : (postDate a).isSome) :
    ∀ l : List Obj, (∀ p ∈ l, (postDate p).isSome) →
      l.Pairwise (fun x y => keyD y ≤ keyD x) →
      (insertPost a l).Pairwise (fun x y => keyD y ≤ keyD x) := by
  intro l
  induction l with
  | nil => intro _ _; simp [insertPost]
  | cons b l ih =>
    intro hvl hs
    rw [List.pairwise_cons] at hs
    unfold insertPost
    by_cases h : dateLe a b = true
    · rw [if_pos h]
      have hab : keyD b ≤ keyD a :=
        (dateLe_iff a b hva (hvl b (List.mem_cons_self _ _))).mp h
      rw [List.pairwise_cons]
      refine ⟨fun c hc => ?_, List.pairwise_cons.mpr hs⟩
      rcases List.mem_cons.mp hc with rfl | hc
      · exact hab
      · exact le_trans (hs.1 c hc) hab
    · rw [if_neg h]
      have hfalse : dateLe a b = false := by rwa [Bool.not_eq_true] at h
      obtain ⟨_, _, hlt⟩ := not_dateLe hfalse
      rw [List.pairwise_cons]
      refine ⟨fun c hc => ?_, ih (fun p hp => hvl p (List.mem_cons_of_mem b hp)) hs.2⟩
      rcases List.mem_cons.mp ((insertPost_perm a l).mem_iff.mp hc) with rfl | hc'
      · exact le_of_lt hlt
      · exact hs.1 c hc'

theorem sortPosts_pairwise : ∀ l : List Obj, (∀ p ∈ l, (postDate p).isSome) →
    (sortPosts l).Pairwise (fun x y => keyD y ≤ keyD x) := by
  intro l
  induction l with
  | nil => intro _; simp [sortPosts]
  | cons a l ih =>
    intro hv
    show (insertPost a (sortPosts l)).Pairwise _
    refine insertPost_pairwise a (hv a (List.mem_cons_self _ _)) (sortPosts l)
      (fun p hp => hv p (List.mem_cons_of_mem a ((sortPosts_perm l).mem_iff.mp hp)))
      (ih (fun p hp => hv p (List.mem_cons_of_mem a hp)))

theorem insertPost_filter (a : Obj) (k : Int) :
    ∀ l : List Obj, (insertPost a l).filter (fun p => postDate p = some k) =
      (a :: l).filter (fun p => postDate p = some k) := by
  intro l
  induction l with
  | nil => rfl
  | cons b l ih =>
    unfold insertPost
    by_cases h : dateLe a b = true
    · rw [if_pos h]
    · rw [if_neg h]
      have hfalse : dateLe a b = false := by rwa [Bool.not_eq_true] at h
      obtain ⟨_, _, hlt⟩ := not_dateLe hfalse
      by_cases hpa : postDate a = some k
      · by_cases hpb : postDate b = some k
        · exfalso
          simp [keyD, hpa, hpb] at hlt
        · simp [List.filter_cons, hpa, hpb, ih]
      · simp [List.filter_cons, hpa, ih]

theorem sortPosts_filter (k : Int) : ∀ l : List Obj,
    (sortPosts l).filter (fun p => postDate p = some k) =
      l.filter (fun p => postDate p = some k) := by
  intro l
  induction l with
  | nil => rfl
  | cons a l ih =>
    show ((insertPost a (sortPosts l)).filter _) = _
    rw [insertPost_filter a k (sortPosts l)]
    simp [List.filter_cons, ih]

/-- C7: with a non-empty catalog whose entries all carry valid dates, the list
renderer renders one card per entry in the order of `sortPosts`, which is a
permutation of the catalog sorted by date descending, with ties (equal dates)
kept in their original relative order (the filter equation expresses
stability). -/
theorem claim_C7 (ps : List Obj) (hne : ps ≠ [])
    (hv : ∀ p ∈ ps, (postDate p).isSome) :
    loadBlogList (.ok ps) = .cards (sortPosts ps) ∧
    (sortPosts ps).Pairwise (fun a b => keyD b ≤ keyD a) ∧
    List.Perm (sortPosts ps) ps ∧
    (∀ k : Int, (sortPosts ps).filter (fun p => postDate p = some k) =
      ps.filter (fun p => postDate p = some k)) := by
  refine ⟨?_, sortPosts_pairwise ps hv, sortPosts_perm ps, fun k => sortPosts_filter k ps⟩
  show (if ps.isEmpty = true then ListView.noPosts else ListView.cards (sortPosts ps)) =
    ListView.cards (sortPosts ps)
  rw [if_neg]
  intro he
  exact hne (List.isEmpty_iff.mp he)

/-- Witness for C7: the spec's example, entries dated 2025-05-05 and
2026-01-01; the 2026 entry is rendered first. -/
theorem claim_C7_witness :
    loadBlogList (.ok [[(strL "date", FMValue.str (strL "2025-05-05"))],
        [(strL "date", FMValue.str (strL "2026-01-01"))]]) =
      .cards [[(strL "date", FMValue.str (strL "2026-01-01"))],
        [(strL "date", FMValue.str (strL "2025-05-05"))]] ∧
    (sortPosts [[(strL "date", FMValue.str (strL "2025-05-05"))],
        [(strL "date", FMValue.str (strL "2026-01-01"))]]).Pairwise
      (fun a b => keyD b ≤ keyD a) :=
  ⟨by decide, (claim_C7 [[(strL "date", FMValue.str (strL "2025-05-05"))],
    [(strL "date", FMValue.str (strL "2026-01-01"))]] (by decide) (by decide)).2.1⟩

end BlogRenderer
